import Mathlib

/-!
Verification of the segment-aggregation and normalization subsystem of a
graph neural network library.  The aggregation operators (sum, mean,
variance-preserving aggregation) and the normalization layer family
(batch, layer, instance, homogeneous and heterogeneous) are embedded
shallowly over real-valued feature tensors `Fin N → Fin F → ℝ` (N rows,
F channels), grouping descriptors being either an index vector
`Fin N → ℕ` or a CSR-style pointer vector `Fin (G+1) → ℕ`.
-/

open scoped BigOperators

noncomputable section

namespace PyG

/-- Modelled from the spec: the source of `SumAggregation` is not in the
repository sample (only its test is), so the reduction is taken from the
spec: "Sum: output group g = elementwise sum of its member rows.  Empty
group → zero vector", addressed by an index vector (row i belongs to
group `index i`). -/
def sumAgg (N F G : ℕ) (x : Fin N → Fin F → ℝ) (index : Fin N → ℕ) :
    Fin G → Fin F → ℝ :=
  fun g c => ∑ i, if index i = g.val then x i c else 0

/-- Modelled from the spec: member count of group g under index addressing
("sum divided by member count" needs it). -/
def countAgg (N G : ℕ) (index : Fin N → ℕ) : Fin G → ℕ :=
  fun g => ∑ i, if index i = g.val then 1 else 0

/-- Modelled from the spec: "Mean: sum divided by member count; empty
group → zero vector (not NaN) by convention." -/
def meanAgg (N F G : ℕ) (x : Fin N → Fin F → ℝ) (index : Fin N → ℕ) :
    Fin G → Fin F → ℝ :=
  fun g c =>
    if countAgg N G index g = 0 then 0
    else sumAgg N F G x index g c / (countAgg N G index g : ℝ)

/-- Modelled from the spec: "Variance-Preserving Aggregation (VPA):
defined as sign(sum) * sqrt(|mean| * |sum|) computed elementwise per
channel per group.  Must be computed via the same underlying mean and sum
reductions." -/
def vpa (N F G : ℕ) (x : Fin N → Fin F → ℝ) (index : Fin N → ℕ) :
    Fin G → Fin F → ℝ :=
  fun g c =>
    Real.sign (sumAgg N F G x index g c) *
      Real.sqrt (|meanAgg N F G x index g c| * |sumAgg N F G x index g c|)

/-- Modelled from the spec: pointer (CSR-style) addressing, "group g owns
rows [ptr g, ptr (g+1))".  Sum reduction over the owned slice. -/
def sumAggPtr (N F G : ℕ) (x : Fin N → Fin F → ℝ) (ptr : Fin (G + 1) → ℕ) :
    Fin G → Fin F → ℝ :=
  fun g c =>
    ∑ i, if ptr g.castSucc ≤ i.val ∧ i.val < ptr g.succ then x i c else 0

/-- Modelled from the spec: member count of group g under pointer
addressing, the width of the owned slice `ptr (g+1) - ptr g`. -/
def countAggPtr (G : ℕ) (ptr : Fin (G + 1) → ℕ) : Fin G → ℕ :=
  fun g => ptr g.succ - ptr g.castSucc

/-- Modelled from the spec: mean reduction under pointer addressing, with
the same empty-group convention as the index form. -/
def meanAggPtr (N F G : ℕ) (x : Fin N → Fin F → ℝ) (ptr : Fin (G + 1) → ℕ) :
    Fin G → Fin F → ℝ :=
  fun g c =>
    if countAggPtr G ptr g = 0 then 0
    else sumAggPtr N F G x ptr g c / (countAggPtr G ptr g : ℝ)

/-- Modelled from the spec: VPA under pointer addressing, computed via the
same underlying pointer-addressed mean and sum reductions. -/
def vpaPtr (N F G : ℕ) (x : Fin N → Fin F → ℝ) (ptr : Fin (G + 1) → ℕ) :
    Fin G → Fin F → ℝ :=
  fun g c =>
    Real.sign (sumAggPtr N F G x ptr g c) *
      Real.sqrt (|meanAggPtr N F G x ptr g c| * |sumAggPtr N F G x ptr g c|)

/-- Modelled from the spec: "output is sized by max(index)+1" when no
explicit group count is supplied. -/
def numGroups (l : List ℕ) : ℕ := l.foldr max 0 + 1

lemma sum_indicator_Ico (N a b : ℕ) (hbN : b ≤ N) :
    (∑ i : Fin N, if a ≤ i.val ∧ i.val < b then 1 else 0) = b - a := by
  rw [Fin.sum_univ_eq_sum_range (fun m => if a ≤ m ∧ m < b then 1 else 0) N]
  have h1 : ∀ m : ℕ, (if a ≤ m ∧ m < b then (1 : ℕ) else 0) =
      (if m ∈ Finset.Ico a b then (1 : ℕ) else 0) := fun m =>
    if_congr Finset.mem_Ico.symm rfl rfl
  rw [Finset.sum_congr rfl (fun m _ => h1 m), Finset.sum_ite_mem]
  have h2 : Finset.range N ∩ Finset.Ico a b = Finset.Ico a b := by
    apply Finset.inter_eq_right.mpr
    intro m hm
    rw [Finset.mem_Ico] at hm
    exact Finset.mem_range.mpr (lt_of_lt_of_le hm.2 hbN)
  rw [h2, Finset.sum_const, Nat.card_Ico, smul_eq_mul, mul_one]

lemma sign_mul_abs (r : ℝ) : Real.sign r * |r| = r := by
  rcases lt_trichotomy r 0 with h | h | h
  · rw [Real.sign_of_neg h, abs_of_neg h]; ring
  · simp [h]
  · rw [Real.sign_of_pos h, abs_of_pos h]; ring

/-- C1: for every feature tensor and every partition of its rows into
groups, the sum, mean and VPA aggregations addressed by an index vector
produce output identical to the same aggregations addressed by a pointer
vector encoding the same partition (rows sorted ascending by group,
pointer monotone, ending at N). -/
theorem aggr_index_ptr_equiv (N F G : ℕ) (x : Fin N → Fin F → ℝ)
    (index : Fin N → ℕ) (ptr : Fin (G + 1) → ℕ)
    (hmono : Monotone ptr) (hlast : ptr (Fin.last G) = N)
    (hpart : ∀ (i : Fin N) (g : Fin G),
      index i = g.val ↔ ptr g.castSucc ≤ i.val ∧ i.val < ptr g.succ) :
    sumAgg N F G x index = sumAggPtr N F G x ptr ∧
    meanAgg N F G x index = meanAggPtr N F G x ptr ∧
    vpa N F G x index = vpaPtr N F G x ptr := by
  have hsum : sumAgg N F G x index = sumAggPtr N F G x ptr := by
    funext g c
    exact Finset.sum_congr rfl fun i _ => if_congr (hpart i g) rfl rfl
  have hcount : ∀ g : Fin G, countAgg N G index g = countAggPtr G ptr g := by
    intro g
    have hbN : ptr g.succ ≤ N := by
      rw [← hlast]; exact hmono (Fin.le_last g.succ)
    calc countAgg N G index g
        = ∑ i : Fin N,
            if ptr g.castSucc ≤ i.val ∧ i.val < ptr g.succ then 1 else 0 :=
          Finset.sum_congr rfl fun i _ => if_congr (hpart i g) rfl rfl
      _ = ptr g.succ - ptr g.castSucc := sum_indicator_Ico N _ _ hbN
      _ = countAggPtr G ptr g := rfl
  have hmean : meanAgg N F G x index = meanAggPtr N F G x ptr := by
    funext g c
    simp only [meanAgg, meanAggPtr, hcount g, hsum]
  refine ⟨hsum, hmean, ?_⟩
  funext g c
  simp only [vpa, vpaPtr, hsum, hmean]

/-- C1 witness: the test scenario index = [0,0,1,1,1,3],
ptr = [0,2,5,5,6] over six rows and four groups. -/
theorem aggr_index_ptr_equiv_witness :
    (Monotone (![0, 2, 5, 5, 6] : Fin 5 → ℕ) ∧
      (![0, 2, 5, 5, 6] : Fin 5 → ℕ) (Fin.last 4) = 6 ∧
      (∀ (i : Fin 6) (g : Fin 4),
        (![0, 0, 1, 1, 1, 3] : Fin 6 → ℕ) i = g.val ↔
          (![0, 2, 5, 5, 6] : Fin 5 → ℕ) g.castSucc ≤ i.val ∧
            i.val < (![0, 2, 5, 5, 6] : Fin 5 → ℕ) g.succ)) ∧
    (sumAgg 6 2 4 (fun i c => (i.val * 2 + c.val : ℝ)) ![0, 0, 1, 1, 1, 3] =
        sumAggPtr 6 2 4 (fun i c => (i.val * 2 + c.val : ℝ)) ![0, 2, 5, 5, 6] ∧
      meanAgg 6 2 4 (fun i c => (i.val * 2 + c.val : ℝ)) ![0, 0, 1, 1, 1, 3] =
        meanAggPtr 6 2 4 (fun i c => (i.val * 2 + c.val : ℝ)) ![0, 2, 5, 5, 6] ∧
      vpa 6 2 4 (fun i c => (i.val * 2 + c.val : ℝ)) ![0, 0, 1, 1, 1, 3] =
        vpaPtr 6 2 4 (fun i c => (i.val * 2 + c.val : ℝ)) ![0, 2, 5, 5, 6]) := by
  have hmono : Monotone (![0, 2, 5, 5, 6] : Fin 5 → ℕ) := by
    have h : ∀ a b : Fin 5, a ≤ b →
        (![0, 2, 5, 5, 6] : Fin 5 → ℕ) a ≤ (![0, 2, 5, 5, 6] : Fin 5 → ℕ) b := by
      decide
    exact fun a b hab => h a b hab
  refine ⟨⟨hmono, by decide, by decide⟩, ?_⟩
  exact aggr_index_ptr_equiv 6 2 4 (fun i c => (i.val * 2 + c.val : ℝ))
    ![0, 0, 1, 1, 1, 3] ![0, 2, 5, 5, 6] hmono (by decide) (by decide)

lemma sumAgg_eq_zero_of_count_eq_zero (N F G : ℕ) (x : Fin N → Fin F → ℝ)
    (index : Fin N → ℕ) (g : Fin G) (c : Fin F)
    (h : countAgg N G index g = 0) : sumAgg N F G x index g c = 0 := by
  unfold countAgg at h
  unfold sumAgg
  apply Finset.sum_eq_zero
  intro i _
  rw [if_neg]
  intro hig
  have h1 := (Finset.sum_eq_zero_iff.mp h) i (Finset.mem_univ i)
  rw [if_pos hig] at h1
  exact one_ne_zero h1

/-- C2: the VPA identity `VPA(X, index) = sign(Sum) * sqrt(|Mean| * |Sum|)`
holds elementwise per channel per group, with Sum and Mean the library
sum and mean aggregations, for both descriptor forms; in this model it is
exact because VPA is computed from those very reductions. -/
theorem vpa_identity (N F G : ℕ) (x : Fin N → Fin F → ℝ) :
    (∀ (index : Fin N → ℕ) (g : Fin G) (c : Fin F),
      vpa N F G x index g c =
        Real.sign (sumAgg N F G x index g c) *
          Real.sqrt (|meanAgg N F G x index g c| * |sumAgg N F G x index g c|)) ∧
    (∀ (ptr : Fin (G + 1) → ℕ) (g : Fin G) (c : Fin F),
      vpaPtr N F G x ptr g c =
        Real.sign (sumAggPtr N F G x ptr g c) *
          Real.sqrt
            (|meanAggPtr N F G x ptr g c| * |sumAggPtr N F G x ptr g c|)) :=
  ⟨fun _ _ _ => rfl, fun _ _ _ => rfl⟩

/-- C3: the concrete test scenario: a 6-row, 16-channel tensor aggregated
with index vector [0,0,1,1,1,3] yields 4 output groups (shape (4,16),
encoded here by the output type `Fin 4 → Fin 16 → ℝ` and by
`numGroups = 4`); the absent group 2 is all-zero under sum, mean and VPA;
and for the singleton group 3, mean equals sum and VPA equals the single
contributing row of the input. -/
theorem concrete_scenario :
    numGroups [0, 0, 1, 1, 1, 3] = 4 ∧
    ∀ x : Fin 6 → Fin 16 → ℝ,
      (∀ c : Fin 16,
        sumAgg 6 16 4 x ![0, 0, 1, 1, 1, 3] 2 c = 0 ∧
        meanAgg 6 16 4 x ![0, 0, 1, 1, 1, 3] 2 c = 0 ∧
        vpa 6 16 4 x ![0, 0, 1, 1, 1, 3] 2 c = 0) ∧
      (∀ c : Fin 16,
        meanAgg 6 16 4 x ![0, 0, 1, 1, 1, 3] 3 c =
          sumAgg 6 16 4 x ![0, 0, 1, 1, 1, 3] 3 c ∧
        vpa 6 16 4 x ![0, 0, 1, 1, 1, 3] 3 c = x 5 c) := by
  have hc2 : countAgg 6 4 ![0, 0, 1, 1, 1, 3] 2 = 0 := by decide
  have hc3 : countAgg 6 4 ![0, 0, 1, 1, 1, 3] 3 = 1 := by decide
  refine ⟨by decide, fun x => ⟨fun c => ?_, fun c => ?_⟩⟩
  · have hs := sumAgg_eq_zero_of_count_eq_zero 6 16 4 x ![0, 0, 1, 1, 1, 3] 2 c hc2
    have hm : meanAgg 6 16 4 x ![0, 0, 1, 1, 1, 3] 2 c = 0 := by
      simp [meanAgg, hc2]
    refine ⟨hs, hm, ?_⟩
    simp [vpa, hs, hm, Real.sign_zero]
  · have hs3 : sumAgg 6 16 4 x ![0, 0, 1, 1, 1, 3] 3 c = x 5 c := by
      simp only [sumAgg]
      rw [Fin.sum_univ_six]
      rw [if_neg (by decide), if_neg (by decide), if_neg (by decide),
        if_neg (by decide), if_neg (by decide), if_pos (by decide)]
      ring
    have hm3 : meanAgg 6 16 4 x ![0, 0, 1, 1, 1, 3] 3 c =
        sumAgg 6 16 4 x ![0, 0, 1, 1, 1, 3] 3 c := by
      simp [meanAgg, hc3]
    refine ⟨hm3, ?_⟩
    simp only [vpa]
    rw [hm3, Real.sqrt_mul_self (abs_nonneg _), sign_mul_abs, hs3]

/-- Segment sum over an index-labeled (batch-membership) vector: the sum
of `v` over the rows of group `g`. -/
def segSum (N : ℕ) (b : Fin N → ℕ) (g : ℕ) (v : Fin N → ℝ) : ℝ :=
  ∑ i, if b i = g then v i else 0

/-- Number of rows of group `g` under batch-membership vector `b`. -/
def segCount (N : ℕ) (b : Fin N → ℕ) (g : ℕ) : ℕ :=
  ∑ i, if b i = g then 1 else 0

lemma ifSum_append_left {M : Type*} [AddCommMonoid M] (N1 N2 : ℕ)
    (b1 : Fin N1 → ℕ) (b2 : Fin N2 → ℕ) (g : ℕ) (v : Fin (N1 + N2) → M)
    (hg : ∀ j : Fin N2, b2 j ≠ g) :
    (∑ i, if Fin.append b1 b2 i = g then v i else 0) =
      ∑ i : Fin N1, if b1 i = g then v (Fin.castAdd N2 i) else 0 := by
  rw [Fin.sum_univ_add]
  have h2 : ∀ j : Fin N2,
      (if Fin.append b1 b2 (Fin.natAdd N1 j) = g then v (Fin.natAdd N1 j)
        else 0) = 0 := by
    intro j
    rw [Fin.append_right, if_neg (hg j)]
  rw [Finset.sum_congr rfl (fun j _ => h2 j), Finset.sum_const, smul_zero,
    add_zero]
  exact Finset.sum_congr rfl fun i _ => by rw [Fin.append_left]

lemma ifSum_append_right {M : Type*} [AddCommMonoid M] (N1 N2 : ℕ)
    (b1 : Fin N1 → ℕ) (b2 : Fin N2 → ℕ) (g : ℕ) (v : Fin (N1 + N2) → M)
    (hg : ∀ i : Fin N1, b1 i ≠ g) :
    (∑ i, if Fin.append b1 b2 i = g then v i else 0) =
      ∑ j : Fin N2, if b2 j = g then v (Fin.natAdd N1 j) else 0 := by
  rw [Fin.sum_univ_add]
  have h1 : ∀ i : Fin N1,
      (if Fin.append b1 b2 (Fin.castAdd N2 i) = g then v (Fin.castAdd N2 i)
        else 0) = 0 := by
    intro i
    rw [Fin.append_left, if_neg (hg i)]
  rw [Finset.sum_congr rfl (fun i _ => h1 i), Finset.sum_const, smul_zero,
    zero_add]
  exact Finset.sum_congr rfl fun j _ => by rw [Fin.append_right]

lemma ifSum_shift {M : Type*} [AddCommMonoid M] (N K : ℕ) (b : Fin N → ℕ)
    (g : ℕ) (v : Fin N → M) :
    (∑ i, if b i + K = g + K then v i else 0) =
      ∑ i, if b i = g then v i else 0 :=
  Finset.sum_congr rfl fun i _ => if_congr (by omega) rfl rfl

lemma segSum_append_left (N1 N2 : ℕ) (b1 : Fin N1 → ℕ) (b2 : Fin N2 → ℕ)
    (g : ℕ) (v : Fin (N1 + N2) → ℝ) (hg : ∀ j : Fin N2, b2 j ≠ g) :
    segSum (N1 + N2) (Fin.append b1 b2) g v =
      segSum N1 b1 g (fun i => v (Fin.castAdd N2 i)) :=
  ifSum_append_left N1 N2 b1 b2 g v hg

lemma segSum_append_right (N1 N2 : ℕ) (b1 : Fin N1 → ℕ) (b2 : Fin N2 → ℕ)
    (g : ℕ) (v : Fin (N1 + N2) → ℝ) (hg : ∀ i : Fin N1, b1 i ≠ g) :
    segSum (N1 + N2) (Fin.append b1 b2) g v =
      segSum N2 b2 g (fun j => v (Fin.natAdd N1 j)) :=
  ifSum_append_right N1 N2 b1 b2 g v hg

lemma segCount_append_left (N1 N2 : ℕ) (b1 : Fin N1 → ℕ) (b2 : Fin N2 → ℕ)
    (g : ℕ) (hg : ∀ j : Fin N2, b2 j ≠ g) :
    segCount (N1 + N2) (Fin.append b1 b2) g = segCount N1 b1 g :=
  ifSum_append_left N1 N2 b1 b2 g (fun _ => 1) hg

lemma segCount_append_right (N1 N2 : ℕ) (b1 : Fin N1 → ℕ) (b2 : Fin N2 → ℕ)
    (g : ℕ) (hg : ∀ i : Fin N1, b1 i ≠ g) :
    segCount (N1 + N2) (Fin.append b1 b2) g = segCount N2 b2 g :=
  ifSum_append_right N1 N2 b1 b2 g (fun _ => 1) hg

lemma segSum_shift (N K : ℕ) (b : Fin N → ℕ) (g : ℕ) (v : Fin N → ℝ) :
    segSum N (fun i => b i + K) (g + K) v = segSum N b g v :=
  ifSum_shift N K b g v

lemma segCount_shift (N K : ℕ) (b : Fin N → ℕ) (g : ℕ) :
    segCount N (fun i => b i + K) (g + K) = segCount N b g :=
  ifSum_shift N K b g (fun _ => 1)

lemma segSum_const (N a : ℕ) (v : Fin N → ℝ) :
    segSum N (fun _ => a) a v = ∑ i, v i :=
  Finset.sum_congr rfl fun _ _ => if_pos rfl

lemma segCount_const (N a : ℕ) : segCount N (fun _ => a) a = N := by
  unfold segCount
  rw [Finset.sum_congr rfl fun i _ => if_pos rfl, Finset.sum_const,
    Finset.card_univ, Fintype.card_fin, smul_eq_mul, mul_one]

/-- Modelled from the spec: mutable state of a (homogeneous) batch
normalizer: hyperparameters (channel count F, epsilon, momentum, flags),
the affine per-channel parameters (weight, bias) and the per-channel
running statistics, plus the train/eval mode flag. -/
structure BatchNorm (F : ℕ) where
  eps : ℝ
  momentum : ℝ
  track_running_stats : Bool
  allow_single_element : Bool
  training : Bool
  weight : Fin F → ℝ
  bias : Fin F → ℝ
  running_mean : Fin F → ℝ
  running_var : Fin F → ℝ

/-- Modelled from the spec: construction of a batch normalizer; requesting
the single-element allowance without running statistics is rejected
immediately at construction with a descriptive failure.  Fresh statistics
are (mean = 0, var = 1), affine parameters (weight = 1, bias = 0), and
the layer starts in training mode. -/
def BatchNorm.create (F : ℕ) (eps momentum : ℝ) (track allow : Bool) :
    Except String (BatchNorm F) :=
  if allow = true ∧ track = false then
    Except.error
      "allow_single_element requires track_running_stats to be set to True"
  else
    Except.ok
      ⟨eps, momentum, track, allow, true, fun _ => 1, fun _ => 0,
        fun _ => 0, fun _ => 1⟩

/-- Per-channel mean over all N rows of a batch. -/
def batchMean (N F : ℕ) (x : Fin N → Fin F → ℝ) : Fin F → ℝ :=
  fun c => (∑ i, x i c) / (N : ℝ)

/-- Per-channel population (biased) variance over all N rows of a batch. -/
def batchVar (N F : ℕ) (x : Fin N → Fin F → ℝ) : Fin F → ℝ :=
  fun c => (∑ i, (x i c - batchMean N F x c) ^ 2) / (N : ℝ)

/-- Normalization of every row by the given per-channel statistics,
followed by the affine transform. -/
def BatchNorm.normalizeWith {F : ℕ} (n : BatchNorm F) (N : ℕ)
    (mu v : Fin F → ℝ) (x : Fin N → Fin F → ℝ) : Fin N → Fin F → ℝ :=
  fun i c =>
    n.weight c * ((x i c - mu c) / Real.sqrt (v c + n.eps)) + n.bias c

/-- Modelled from the spec: the running-statistics update (exponential
moving average with the layer momentum), applied only on training-mode
calls with running statistics enabled; otherwise the state is unchanged. -/
def BatchNorm.stepState {F : ℕ} (n : BatchNorm F) (N : ℕ)
    (x : Fin N → Fin F → ℝ) : BatchNorm F :=
  if n.training = true ∧ n.track_running_stats = true then
    ⟨n.eps, n.momentum, n.track_running_stats, n.allow_single_element,
      n.training, n.weight, n.bias,
      fun c => (1 - n.momentum) * n.running_mean c +
        n.momentum * batchMean N F x c,
      fun c => (1 - n.momentum) * n.running_var c +
        n.momentum * batchVar N F x c⟩
  else n

/-- Modelled from the spec: batch normalizer forward pass.  A single-row
input is served from the running statistics when the single-element
allowance is set; otherwise a batch of at most one row is rejected
whenever batch statistics would be used (training mode, or running
statistics disabled).  Batch-statistics passes update the state; running
statistics are used (read-only) in evaluation mode. -/
def BatchNorm.forward {F : ℕ} (n : BatchNorm F) (N : ℕ)
    (x : Fin N → Fin F → ℝ) :
    Except String ((Fin N → Fin F → ℝ) × BatchNorm F) :=
  if N = 1 ∧ n.allow_single_element = true then
    Except.ok (n.normalizeWith N n.running_mean n.running_var x, n)
  else if N ≤ 1 ∧ (n.training = true ∨ n.track_running_stats = false) then
    Except.error "Expected more than 1 value per channel when training"
  else if n.training = true ∨ n.track_running_stats = false then
    Except.ok
      (n.normalizeWith N (batchMean N F x) (batchVar N F x) x,
        n.stepState N x)
  else
    Except.ok (n.normalizeWith N n.running_mean n.running_var x, n)

/-- Modelled from the spec: a heterogeneous batch normalizer maintains one
independent population-statistics normalizer per type. -/
abbrev HeteroBatchNorm (T : Type) (F : ℕ) : Type := T → BatchNorm F

/-- Modelled from the spec: `from_homogeneous` replicates the current
parameters and statistics of an existing homogeneous normalizer
independently across all types. -/
def HeteroBatchNorm.from_homogeneous (T : Type) (F : ℕ) (h : BatchNorm F) :
    HeteroBatchNorm T F :=
  fun _ => h

/-- Heterogeneous forward for one type of a type-indexed input mapping:
each type is normalized independently with its own state. -/
def HeteroBatchNorm.forwardType {T : Type} {F : ℕ} (hn : HeteroBatchNorm T F)
    (t : T) (N : ℕ) (x : T → Fin N → Fin F → ℝ) :
    Except String ((Fin N → Fin F → ℝ) × BatchNorm F) :=
  (hn t).forward N (x t)

/-- Statistics update of one type of a heterogeneous batch normalizer:
only the entry of type `t` is replaced. -/
def HeteroBatchNorm.updateType {T : Type} [DecidableEq T] {F : ℕ}
    (hn : HeteroBatchNorm T F) (t : T) (N : ℕ) (x : Fin N → Fin F → ℝ) :
    HeteroBatchNorm T F :=
  Function.update hn t ((hn t).stepState N x)

/-- Modelled from the spec: the two layer-normalization modes, `graph`
(normalize across all channels and all nodes of one graph instance) and
`node` (normalize each row independently across its channels). -/
inductive LNMode where
  | graph : LNMode
  | node : LNMode

/-- Modelled from the spec: a (homogeneous) layer normalizer: epsilon,
mode, and per-channel affine parameters.  It keeps no running
statistics. -/
structure LayerNorm (F : ℕ) where
  eps : ℝ
  mode : LNMode
  weight : Fin F → ℝ
  bias : Fin F → ℝ

/-- Mean of one row across its channels. -/
def rowMean (F : ℕ) (r : Fin F → ℝ) : ℝ := (∑ c, r c) / (F : ℝ)

/-- Population variance of one row across its channels. -/
def rowVar (F : ℕ) (r : Fin F → ℝ) : ℝ :=
  (∑ c, (r c - rowMean F r) ^ 2) / (F : ℝ)

/-- Mean over all channels and all nodes of graph `g` (batch vector `b`). -/
def gMean (N F : ℕ) (x : Fin N → Fin F → ℝ) (b : Fin N → ℕ) (g : ℕ) : ℝ :=
  segSum N b g (fun i => ∑ c, x i c) / ((segCount N b g * F : ℕ) : ℝ)

/-- Population variance over all channels and all nodes of graph `g`. -/
def gVar (N F : ℕ) (x : Fin N → Fin F → ℝ) (b : Fin N → ℕ) (g : ℕ) : ℝ :=
  segSum N b g (fun i => ∑ c, (x i c - gMean N F x b g) ^ 2) /
    ((segCount N b g * F : ℕ) : ℝ)

/-- Modelled from the spec: layer normalizer forward pass.  In `node`
mode each row is normalized across its channel dimension only; in `graph`
mode each row is normalized by the statistics of its graph segment (all
channels, all nodes of that graph), the graph given by the batch vector. -/
def LayerNorm.forward {F : ℕ} (ln : LayerNorm F) (N : ℕ)
    (x : Fin N → Fin F → ℝ) (b : Fin N → ℕ) : Fin N → Fin F → ℝ :=
  match ln.mode with
  | LNMode.node => fun i c =>
      ln.weight c * ((x i c - rowMean F (x i)) /
        Real.sqrt (rowVar F (x i) + ln.eps)) + ln.bias c
  | LNMode.graph => fun i c =>
      ln.weight c * ((x i c - gMean N F x b (b i)) /
        Real.sqrt (gVar N F x b (b i) + ln.eps)) + ln.bias c

lemma gMean_append_left (N1 N2 F : ℕ) (x1 : Fin N1 → Fin F → ℝ)
    (x2 : Fin N2 → Fin F → ℝ) (b1 : Fin N1 → ℕ) (b2 : Fin N2 → ℕ) (g : ℕ)
    (hg : ∀ j : Fin N2, b2 j ≠ g) :
    gMean (N1 + N2) F (Fin.append x1 x2) (Fin.append b1 b2) g =
      gMean N1 F x1 b1 g := by
  unfold gMean
  rw [segCount_append_left N1 N2 b1 b2 g hg,
    segSum_append_left N1 N2 b1 b2 g _ hg]
  exact congrArg (fun v => segSum N1 b1 g v / ((segCount N1 b1 g * F : ℕ) : ℝ))
    (funext fun i => by simp only [Fin.append_left])

lemma gVar_append_left (N1 N2 F : ℕ) (x1 : Fin N1 → Fin F → ℝ)
    (x2 : Fin N2 → Fin F → ℝ) (b1 : Fin N1 → ℕ) (b2 : Fin N2 → ℕ) (g : ℕ)
    (hg : ∀ j : Fin N2, b2 j ≠ g) :
    gVar (N1 + N2) F (Fin.append x1 x2) (Fin.append b1 b2) g =
      gVar N1 F x1 b1 g := by
  unfold gVar
  rw [gMean_append_left N1 N2 F x1 x2 b1 b2 g hg,
    segCount_append_left N1 N2 b1 b2 g hg,
    segSum_append_left N1 N2 b1 b2 g _ hg]
  exact congrArg (fun v => segSum N1 b1 g v / ((segCount N1 b1 g * F : ℕ) : ℝ))
    (funext fun i => by simp only [Fin.append_left])

lemma gMean_append_right (N1 N2 F : ℕ) (x1 : Fin N1 → Fin F → ℝ)
    (x2 : Fin N2 → Fin F → ℝ) (b1 : Fin N1 → ℕ) (b2 : Fin N2 → ℕ) (g : ℕ)
    (hg : ∀ i : Fin N1, b1 i ≠ g) :
    gMean (N1 + N2) F (Fin.append x1 x2) (Fin.append b1 b2) g =
      gMean N2 F x2 b2 g := by
  unfold gMean
  rw [segCount_append_right N1 N2 b1 b2 g hg,
    segSum_append_right N1 N2 b1 b2 g _ hg]
  exact congrArg (fun v => segSum N2 b2 g v / ((segCount N2 b2 g * F : ℕ) : ℝ))
    (funext fun j => by simp only [Fin.append_right])

lemma gVar_append_right (N1 N2 F : ℕ) (x1 : Fin N1 → Fin F → ℝ)
    (x2 : Fin N2 → Fin F → ℝ) (b1 : Fin N1 → ℕ) (b2 : Fin N2 → ℕ) (g : ℕ)
    (hg : ∀ i : Fin N1, b1 i ≠ g) :
    gVar (N1 + N2) F (Fin.append x1 x2) (Fin.append b1 b2) g =
      gVar N2 F x2 b2 g := by
  unfold gVar
  rw [gMean_append_right N1 N2 F x1 x2 b1 b2 g hg,
    segCount_append_right N1 N2 b1 b2 g hg,
    segSum_append_right N1 N2 b1 b2 g _ hg]
  exact congrArg (fun v => segSum N2 b2 g v / ((segCount N2 b2 g * F : ℕ) : ℝ))
    (funext fun j => by simp only [Fin.append_right])

lemma gMean_shift (N F K : ℕ) (x : Fin N → Fin F → ℝ) (b : Fin N → ℕ)
    (g : ℕ) : gMean N F x (fun i => b i + K) (g + K) = gMean N F x b g := by
  unfold gMean
  rw [segSum_shift, segCount_shift]

lemma gVar_shift (N F K : ℕ) (x : Fin N → Fin F → ℝ) (b : Fin N → ℕ)
    (g : ℕ) : gVar N F x (fun i => b i + K) (g + K) = gVar N F x b g := by
  unfold gVar
  rw [gMean_shift, segSum_shift, segCount_shift]

/-- C6: layer normalization is batch-assembly invariant in both modes:
normalizing the row-wise concatenation of two inputs, with the
correspondingly concatenated batch vector whose second half is offset so
that the two halves share no graph id, reproduces per segment the result
of normalizing each input separately. -/
theorem layernorm_batch_assembly (F N1 N2 K : ℕ) (ln : LayerNorm F)
    (x1 : Fin N1 → Fin F → ℝ) (x2 : Fin N2 → Fin F → ℝ)
    (b1 : Fin N1 → ℕ) (b2 : Fin N2 → ℕ)
    (hdisj : ∀ (i : Fin N1) (j : Fin N2), b1 i ≠ b2 j + K) :
    (∀ (i : Fin N1) (c : Fin F),
      ln.forward (N1 + N2) (Fin.append x1 x2)
          (Fin.append b1 fun j => b2 j + K) (Fin.castAdd N2 i) c =
        ln.forward N1 x1 b1 i c) ∧
    (∀ (j : Fin N2) (c : Fin F),
      ln.forward (N1 + N2) (Fin.append x1 x2)
          (Fin.append b1 fun j => b2 j + K) (Fin.natAdd N1 j) c =
        ln.forward N2 x2 b2 j c) := by
  obtain ⟨eps, mode, w, bias⟩ := ln
  cases mode with
  | node =>
    constructor
    · intro i c
      simp only [LayerNorm.forward, Fin.append_left]
    · intro j c
      simp only [LayerNorm.forward, Fin.append_right]
  | graph =>
    constructor
    · intro i c
      simp only [LayerNorm.forward, Fin.append_left]
      rw [gMean_append_left N1 N2 F x1 x2 b1 _ _ fun j => Ne.symm (hdisj i j),
        gVar_append_left N1 N2 F x1 x2 b1 _ _ fun j => Ne.symm (hdisj i j)]
    · intro j c
      simp only [LayerNorm.forward, Fin.append_right]
      rw [gMean_append_right N1 N2 F x1 x2 b1 _ _ fun i => hdisj i j,
        gVar_append_right N1 N2 F x1 x2 b1 _ _ fun i => hdisj i j,
        gMean_shift N2 F K x2 b2 (b2 j), gVar_shift N2 F K x2 b2 (b2 j)]

/-- C6 witness: a one-row pair of graphs with offset 1 in graph mode. -/
theorem layernorm_batch_assembly_witness :
    (∀ (i : Fin 1) (j : Fin 1),
      (fun _ : Fin 1 => (0 : ℕ)) i ≠ (fun _ : Fin 1 => (0 : ℕ)) j + 1) ∧
    ((∀ (i : Fin 1) (c : Fin 1),
      LayerNorm.forward ⟨1 / 100000, LNMode.graph, fun _ => 1, fun _ => 0⟩
          (1 + 1) (Fin.append (fun _ _ => 1) fun _ _ => 2)
          (Fin.append (fun _ : Fin 1 => (0 : ℕ))
            fun j : Fin 1 => (fun _ : Fin 1 => (0 : ℕ)) j + 1)
          (Fin.castAdd 1 i) c =
        LayerNorm.forward ⟨1 / 100000, LNMode.graph, fun _ => 1, fun _ => 0⟩
          1 (fun _ _ => 1) (fun _ : Fin 1 => (0 : ℕ)) i c) ∧
    (∀ (j : Fin 1) (c : Fin 1),
      LayerNorm.forward ⟨1 / 100000, LNMode.graph, fun _ => 1, fun _ => 0⟩
          (1 + 1) (Fin.append (fun _ _ => 1) fun _ _ => 2)
          (Fin.append (fun _ : Fin 1 => (0 : ℕ))
            fun j : Fin 1 => (fun _ : Fin 1 => (0 : ℕ)) j + 1)
          (Fin.natAdd 1 j) c =
        LayerNorm.forward ⟨1 / 100000, LNMode.graph, fun _ => 1, fun _ => 0⟩
          1 (fun _ _ => 2) (fun _ : Fin 1 => (0 : ℕ)) j c)) :=
  ⟨by decide,
    layernorm_batch_assembly 1 1 1 1
      ⟨1 / 100000, LNMode.graph, fun _ => 1, fun _ => 0⟩
      (fun _ _ => 1) (fun _ _ => 2) (fun _ => 0) (fun _ => 0) (by decide)⟩

/-- Per-graph, per-channel mean over the rows of graph `g` (instance
normalization statistics). -/
def chanMean (N F : ℕ) (x : Fin N → Fin F → ℝ) (b : Fin N → ℕ) (g : ℕ)
    (c : Fin F) : ℝ :=
  segSum N b g (fun i => x i c) / (segCount N b g : ℝ)

/-- Per-graph, per-channel population variance over the rows of graph `g`. -/
def chanVar (N F : ℕ) (x : Fin N → Fin F → ℝ) (b : Fin N → ℕ) (g : ℕ)
    (c : Fin F) : ℝ :=
  segSum N b g (fun i => (x i c - chanMean N F x b g c) ^ 2) /
    (segCount N b g : ℝ)

/-- One exponential-moving-average update of a per-channel statistic. -/
def emaStep (mom : ℝ) (F : ℕ) (r mu : Fin F → ℝ) : Fin F → ℝ :=
  fun c => (1 - mom) * r c + mom * mu c

/-- Modelled from the spec: running statistics "accumulate across the
union of all graphs seen across calls": one moving-average update per
graph of the call, folded in graph order. -/
def emaFold (mom : ℝ) (F : ℕ) (init : Fin F → ℝ)
    (l : List (Fin F → ℝ)) : Fin F → ℝ :=
  l.foldl (emaStep mom F) init

/-- Modelled from the spec: mutable state of a (homogeneous) instance
normalizer: hyperparameters, per-channel affine parameters and running
statistics shared across all graphs of the type. -/
structure InstanceNorm (F : ℕ) where
  eps : ℝ
  momentum : ℝ
  track_running_stats : Bool
  training : Bool
  weight : Fin F → ℝ
  bias : Fin F → ℝ
  running_mean : Fin F → ℝ
  running_var : Fin F → ℝ

/-- Modelled from the spec: instance normalizer forward pass over the `B`
graphs delimited by batch vector `b`.  Each row is normalized by its own
graph's per-channel statistics in training mode (or when running
statistics are disabled); in evaluation mode with running statistics the
accumulated estimates are used.  On training-mode calls with tracking,
the running statistics absorb one moving-average update per graph. -/
def InstanceNorm.forward {F : ℕ} (m : InstanceNorm F) (N : ℕ)
    (x : Fin N → Fin F → ℝ) (b : Fin N → ℕ) (B : ℕ) :
    (Fin N → Fin F → ℝ) × InstanceNorm F :=
  (if m.training = true ∨ m.track_running_stats = false then
     fun i c => m.weight c * ((x i c - chanMean N F x b (b i) c) /
       Real.sqrt (chanVar N F x b (b i) c + m.eps)) + m.bias c
   else
     fun i c => m.weight c * ((x i c - m.running_mean c) /
       Real.sqrt (m.running_var c + m.eps)) + m.bias c,
   if m.training = true ∧ m.track_running_stats = true then
     ⟨m.eps, m.momentum, m.track_running_stats, m.training, m.weight,
       m.bias,
       emaFold m.momentum F m.running_mean
         ((List.range B).map fun g c => chanMean N F x b g c),
       emaFold m.momentum F m.running_var
         ((List.range B).map fun g c => chanVar N F x b g c)⟩
   else m)

lemma chanMean_cat_left (N1 N2 F : ℕ) (x1 : Fin N1 → Fin F → ℝ)
    (x2 : Fin N2 → Fin F → ℝ) (c : Fin F) :
    chanMean (N1 + N2) F (Fin.append x1 x2)
        (Fin.append (fun _ => 0) fun _ => 1) 0 c =
      chanMean N1 F x1 (fun _ => 0) 0 c := by
  unfold chanMean
  rw [segCount_append_left N1 N2 _ _ 0 (fun j => one_ne_zero),
    segSum_append_left N1 N2 _ _ 0 _ (fun j => one_ne_zero)]
  exact congrArg
    (fun v => segSum N1 (fun _ => (0 : ℕ)) 0 v /
      ((segCount N1 (fun _ => (0 : ℕ)) 0 : ℕ) : ℝ))
    (funext fun i => by simp only [Fin.append_left])

lemma chanVar_cat_left (N1 N2 F : ℕ) (x1 : Fin N1 → Fin F → ℝ)
    (x2 : Fin N2 → Fin F → ℝ) (c : Fin F) :
    chanVar (N1 + N2) F (Fin.append x1 x2)
        (Fin.append (fun _ => 0) fun _ => 1) 0 c =
      chanVar N1 F x1 (fun _ => 0) 0 c := by
  unfold chanVar
  rw [chanMean_cat_left N1 N2 F x1 x2 c,
    segCount_append_left N1 N2 _ _ 0 (fun j => one_ne_zero),
    segSum_append_left N1 N2 _ _ 0 _ (fun j => one_ne_zero)]
  exact congrArg
    (fun v => segSum N1 (fun _ => (0 : ℕ)) 0 v /
      ((segCount N1 (fun _ => (0 : ℕ)) 0 : ℕ) : ℝ))
    (funext fun i => by simp only [Fin.append_left])

lemma chanMean_cat_right (N1 N2 F : ℕ) (x1 : Fin N1 → Fin F → ℝ)
    (x2 : Fin N2 → Fin F → ℝ) (c : Fin F) :
    chanMean (N1 + N2) F (Fin.append x1 x2)
        (Fin.append (fun _ => 0) fun _ => 1) 1 c =
      chanMean N2 F x2 (fun _ => 0) 0 c := by
  unfold chanMean
  rw [segCount_append_right N1 N2 _ _ 1 (fun i => zero_ne_one),
    segSum_append_right N1 N2 _ _ 1 _ (fun i => zero_ne_one)]
  rw [show (fun j => Fin.append x1 x2 (Fin.natAdd N1 j) c) =
      fun j : Fin N2 => x2 j c from
    funext fun j => by simp only [Fin.append_right]]
  rw [segSum_const N2 1, segSum_const N2 0, segCount_const N2 1,
    segCount_const N2 0]

lemma chanVar_cat_right (N1 N2 F : ℕ) (x1 : Fin N1 → Fin F → ℝ)
    (x2 : Fin N2 → Fin F → ℝ) (c : Fin F) :
    chanVar (N1 + N2) F (Fin.append x1 x2)
        (Fin.append (fun _ => 0) fun _ => 1) 1 c =
      chanVar N2 F x2 (fun _ => 0) 0 c := by
  unfold chanVar
  rw [chanMean_cat_right N1 N2 F x1 x2 c,
    segCount_append_right N1 N2 _ _ 1 (fun i => zero_ne_one),
    segSum_append_right N1 N2 _ _ 1 _ (fun i => zero_ne_one)]
  rw [show (fun j => (Fin.append x1 x2 (Fin.natAdd N1 j) c -
        chanMean N2 F x2 (fun _ => 0) 0 c) ^ 2) =
      fun j : Fin N2 => (x2 j c - chanMean N2 F x2 (fun _ => 0) 0 c) ^ 2 from
    funext fun j => by simp only [Fin.append_right]]
  rw [segSum_const N2 1, segSum_const N2 0, segCount_const N2 1,
    segCount_const N2 0]

/-- C7: instance-normalizing two samples in two sequential training-mode
calls (running statistics accumulating) yields the same per-call outputs
as one call on their row-wise concatenation with a batch vector
distinguishing the two samples, and the resulting running mean and
running variance agree between the two calling conventions. -/
theorem instancenorm_sequential_vs_batched (F N1 N2 : ℕ)
    (m : InstanceNorm F) (h1 : m.training = true)
    (h2 : m.track_running_stats = true)
    (x1 : Fin N1 → Fin F → ℝ) (x2 : Fin N2 → Fin F → ℝ) :
    (∀ (i : Fin N1) (c : Fin F),
      (m.forward (N1 + N2) (Fin.append x1 x2)
          (Fin.append (fun _ => 0) fun _ => 1) 2).1 (Fin.castAdd N2 i) c =
        (m.forward N1 x1 (fun _ => 0) 1).1 i c) ∧
    (∀ (j : Fin N2) (c : Fin F),
      (m.forward (N1 + N2) (Fin.append x1 x2)
          (Fin.append (fun _ => 0) fun _ => 1) 2).1 (Fin.natAdd N1 j) c =
        ((m.forward N1 x1 (fun _ => 0) 1).2.forward N2 x2
          (fun _ => 0) 1).1 j c) ∧
    (m.forward (N1 + N2) (Fin.append x1 x2)
        (Fin.append (fun _ => 0) fun _ => 1) 2).2.running_mean =
      ((m.forward N1 x1 (fun _ => 0) 1).2.forward N2 x2
        (fun _ => 0) 1).2.running_mean ∧
    (m.forward (N1 + N2) (Fin.append x1 x2)
        (Fin.append (fun _ => 0) fun _ => 1) 2).2.running_var =
      ((m.forward N1 x1 (fun _ => 0) 1).2.forward N2 x2
        (fun _ => 0) 1).2.running_var := by
  obtain ⟨eps, mom, track, training, w, bias, rm, rv⟩ := m
  have h1' : training = true := h1
  have h2' : track = true := h2
  subst h1'
  subst h2'
  refine ⟨fun i c => ?_, fun j c => ?_, ?_, ?_⟩
  · simp only [InstanceNorm.forward, eq_self_iff_true, true_or, and_self,
      if_true, Fin.append_left, chanMean_cat_left, chanVar_cat_left]
  · simp only [InstanceNorm.forward, eq_self_iff_true, true_or, and_self,
      if_true, Fin.append_right, chanMean_cat_right, chanVar_cat_right]
  · simp only [InstanceNorm.forward, eq_self_iff_true, true_or, and_self,
      if_true, emaFold, List.range_succ, List.range_zero, List.map_append,
      List.map_cons, List.map_nil, List.nil_append, List.foldl_append,
      List.foldl_cons, List.foldl_nil, chanMean_cat_left, chanMean_cat_right]
  · simp only [InstanceNorm.forward, eq_self_iff_true, true_or, and_self,
      if_true, emaFold, List.range_succ, List.range_zero, List.map_append,
      List.map_cons, List.map_nil, List.nil_append, List.foldl_append,
      List.foldl_cons, List.foldl_nil, chanVar_cat_left, chanVar_cat_right]

/-- A freshly created instance normalizer (1 channel, default epsilon and
momentum) in training mode with running statistics enabled. -/
def inTrain : InstanceNorm 1 :=
  ⟨1 / 100000, 1 / 10, true, true, fun _ => 1, fun _ => 0, fun _ => 0,
    fun _ => 1⟩

/-- An instance normalizer in evaluation mode with running statistics. -/
def inEval : InstanceNorm 1 :=
  ⟨1 / 100000, 1 / 10, true, false, fun _ => 1, fun _ => 0, fun _ => 0,
    fun _ => 1⟩

/-- A freshly created batch normalizer with running statistics and the
single-element allowance. -/
def bnAllow : BatchNorm 1 :=
  ⟨1 / 100000, 1 / 10, true, true, true, fun _ => 1, fun _ => 0,
    fun _ => 0, fun _ => 1⟩

/-- A batch normalizer with running statistics disabled and no
single-element allowance. -/
def bnNoTrack : BatchNorm 1 :=
  ⟨1 / 100000, 1 / 10, false, false, true, fun _ => 1, fun _ => 0,
    fun _ => 0, fun _ => 1⟩

/-- A batch normalizer with running statistics, in evaluation mode. -/
def bnEval : BatchNorm 1 :=
  ⟨1 / 100000, 1 / 10, true, false, false, fun _ => 1, fun _ => 0,
    fun _ => 0, fun _ => 1⟩

/-- C7 witness: two one-row samples through a fresh training-mode
instance normalizer, sequentially and concatenated. -/
theorem instancenorm_sequential_vs_batched_witness :
    (inTrain.training = true ∧ inTrain.track_running_stats = true) ∧
    ((∀ (i : Fin 1) (c : Fin 1),
      (inTrain.forward (1 + 1) (Fin.append (fun _ _ => 1) fun _ _ => 2)
          (Fin.append (fun _ => 0) fun _ => 1) 2).1 (Fin.castAdd 1 i) c =
        (inTrain.forward 1 (fun _ _ => 1) (fun _ => 0) 1).1 i c) ∧
    (∀ (j : Fin 1) (c : Fin 1),
      (inTrain.forward (1 + 1) (Fin.append (fun _ _ => 1) fun _ _ => 2)
          (Fin.append (fun _ => 0) fun _ => 1) 2).1 (Fin.natAdd 1 j) c =
        ((inTrain.forward 1 (fun _ _ => 1) (fun _ => 0) 1).2.forward 1
          (fun _ _ => 2) (fun _ => 0) 1).1 j c) ∧
    (inTrain.forward (1 + 1) (Fin.append (fun _ _ => 1) fun _ _ => 2)
        (Fin.append (fun _ => 0) fun _ => 1) 2).2.running_mean =
      ((inTrain.forward 1 (fun _ _ => 1) (fun _ => 0) 1).2.forward 1
        (fun _ _ => 2) (fun _ => 0) 1).2.running_mean ∧
    (inTrain.forward (1 + 1) (Fin.append (fun _ _ => 1) fun _ _ => 2)
        (Fin.append (fun _ => 0) fun _ => 1) 2).2.running_var =
      ((inTrain.forward 1 (fun _ _ => 1) (fun _ => 0) 1).2.forward 1
        (fun _ _ => 2) (fun _ => 0) 1).2.running_var) :=
  ⟨⟨rfl, rfl⟩,
    instancenorm_sequential_vs_batched 1 1 1 inTrain rfl rfl
      (fun _ _ => 1) (fun _ _ => 2)⟩

/-- C4: a single-row input to batch normalization with running statistics
disabled and no single-element allowance fails immediately with a
descriptive error instead of silently producing output. -/
theorem batchnorm_single_row_fails (F : ℕ) (n : BatchNorm F)
    (htrack : n.track_running_stats = false)
    (hallow : n.allow_single_element = false) (x : Fin 1 → Fin F → ℝ) :
    n.forward 1 x =
      Except.error "Expected more than 1 value per channel when training" := by
  unfold BatchNorm.forward
  rw [if_neg fun hcon => by
      rw [hallow] at hcon
      exact Bool.noConfusion hcon.2,
    if_pos ⟨le_refl 1, Or.inr htrack⟩]

/-- C4 witness: the rejection at a concrete single-row call. -/
theorem batchnorm_single_row_fails_witness :
    (bnNoTrack.track_running_stats = false ∧
      bnNoTrack.allow_single_element = false) ∧
    bnNoTrack.forward 1 (fun _ _ => 0) =
      Except.error "Expected more than 1 value per channel when training" :=
  ⟨⟨rfl, rfl⟩, batchnorm_single_row_fails 1 bnNoTrack rfl rfl fun _ _ => 0⟩

/-- C9: constructing a batch normalizer with running statistics disabled
together with the single-element allowance is rejected at construction
time (no forward call is involved) with an error message that mentions
track_running_stats. -/
theorem batchnorm_create_rejects_allow_without_track (F : ℕ)
    (eps momentum : ℝ) :
    BatchNorm.create F eps momentum false true =
      Except.error
        "allow_single_element requires track_running_stats to be set to True" ∧
    "track_running_stats".toList <:+:
      "allow_single_element requires track_running_stats to be set to True".toList := by
  constructor
  · unfold BatchNorm.create
    rw [if_pos ⟨rfl, rfl⟩]
  · decide

lemma div_sqrt_one_add_close (e y : ℝ) (he0 : 0 ≤ e) :
    |y / Real.sqrt (1 + e) - y| ≤ e * |y| := by
  have hpos : (0 : ℝ) < 1 + e := by linarith
  have hs0 : 0 < Real.sqrt (1 + e) := Real.sqrt_pos.mpr hpos
  have hs1 : 1 ≤ Real.sqrt (1 + e) := Real.le_sqrt_of_sq_le (by nlinarith)
  have hs2 : Real.sqrt (1 + e) ≤ 1 + e / 2 :=
    Real.sqrt_one_add_le (by linarith)
  have hrw : y / Real.sqrt (1 + e) - y =
      -(y * ((Real.sqrt (1 + e) - 1) / Real.sqrt (1 + e))) := by
    field_simp
    ring
  rw [hrw, abs_neg, abs_mul,
    abs_of_nonneg (div_nonneg (by linarith) hs0.le), mul_comm]
  apply mul_le_mul_of_nonneg_right _ (abs_nonneg y)
  rw [div_le_iff₀ hs0]
  nlinarith [mul_le_mul_of_nonneg_left hs1 he0]

/-- C10: a batch normalizer constructed with running statistics enabled
and the single-element allowance accepts a single-row input without
failing and returns the input unchanged up to the relative tolerance
eps = 1/100000 (fresh statistics are mean 0 and variance 1, so the
output is x / sqrt(1 + eps)). -/
theorem batchnorm_single_element_identity (F : ℕ) (n : BatchNorm F)
    (hn : BatchNorm.create F (1 / 100000) (1 / 10) true true = Except.ok n)
    (x : Fin 1 → Fin F → ℝ) :
    n.forward 1 x =
      Except.ok (n.normalizeWith 1 n.running_mean n.running_var x, n) ∧
    ∀ (i : Fin 1) (c : Fin F),
      |n.normalizeWith 1 n.running_mean n.running_var x i c - x i c| ≤
        1 / 100000 * |x i c| := by
  unfold BatchNorm.create at hn
  rw [if_neg fun hcon => Bool.noConfusion hcon.2] at hn
  injection hn with hn
  subst hn
  constructor
  · unfold BatchNorm.forward
    rw [if_pos ⟨rfl, rfl⟩]
  · intro i c
    unfold BatchNorm.normalizeWith
    simp only [one_mul, sub_zero, add_zero]
    exact div_sqrt_one_add_close (1 / 100000) (x i c) (by norm_num)

/-- C10 witness: the single-element path on a concrete input. -/
theorem batchnorm_single_element_identity_witness :
    (BatchNorm.create 1 (1 / 100000) (1 / 10) true true =
      Except.ok bnAllow) ∧
    (bnAllow.forward 1 (fun _ _ => 1) =
      Except.ok (bnAllow.normalizeWith 1 bnAllow.running_mean
        bnAllow.running_var (fun _ _ => 1), bnAllow) ∧
    ∀ (i : Fin 1) (c : Fin 1),
      |bnAllow.normalizeWith 1 bnAllow.running_mean bnAllow.running_var
          (fun _ _ => 1) i c - (fun _ _ => (1 : ℝ)) i c| ≤
        1 / 100000 * |(fun _ _ => (1 : ℝ)) i c|) :=
  ⟨rfl, batchnorm_single_element_identity 1 bnAllow rfl fun _ _ => 1⟩

/-- C5: a heterogeneous batch normalizer derived via from_homogeneous
replicates the source normalizer's output exactly for every type and
every input immediately after construction, and a later statistics
update of any one type leaves every other type's state and output
unchanged. -/
theorem heterobatchnorm_from_homogeneous (T : Type) [DecidableEq T]
    (F : ℕ) (h : BatchNorm F) :
    (∀ (t : T) (N : ℕ) (x : T → Fin N → Fin F → ℝ),
      HeteroBatchNorm.forwardType (HeteroBatchNorm.from_homogeneous T F h)
        t N x = h.forward N (x t)) ∧
    (∀ (hn : HeteroBatchNorm T F) (t t' : T), t' ≠ t →
      ∀ (N : ℕ) (x : Fin N → Fin F → ℝ),
        HeteroBatchNorm.updateType hn t N x t' = hn t' ∧
        ∀ (M : ℕ) (y : Fin M → Fin F → ℝ),
          (HeteroBatchNorm.updateType hn t N x t').forward M y =
            (hn t').forward M y) := by
  refine ⟨fun t N x => rfl, fun hn t t' hne N x => ?_⟩
  have hupd : HeteroBatchNorm.updateType hn t N x t' = hn t' :=
    Function.update_noteq hne _ hn
  exact ⟨hupd, fun M y => by rw [hupd]⟩

/-- C5 witness: two types, an update of one type, framed on the other. -/
theorem heterobatchnorm_from_homogeneous_witness :
    ((false : Bool) ≠ true) ∧
    (HeteroBatchNorm.updateType
        (HeteroBatchNorm.from_homogeneous Bool 1 bnEval) true 2
        (fun _ _ => 0) false =
      HeteroBatchNorm.from_homogeneous Bool 1 bnEval false ∧
    ∀ (M : ℕ) (y : Fin M → Fin 1 → ℝ),
      (HeteroBatchNorm.updateType
          (HeteroBatchNorm.from_homogeneous Bool 1 bnEval) true 2
          (fun _ _ => 0) false).forward M y =
        (HeteroBatchNorm.from_homogeneous Bool 1 bnEval false).forward
          M y) :=
  ⟨fun hcon => Bool.noConfusion hcon,
    (heterobatchnorm_from_homogeneous Bool 1 bnEval).2
      (HeteroBatchNorm.from_homogeneous Bool 1 bnEval) true false
      (fun hcon => Bool.noConfusion hcon) 2 fun _ _ => 0⟩

/-- C8: evaluation-mode forward calls leave the running mean and running
variance of the batch and instance normalization layers unchanged; the
buffers are mutated only by training-mode calls. -/
theorem eval_mode_preserves_running_stats (F N : ℕ) :
    (∀ (n : BatchNorm F) (x : Fin N → Fin F → ℝ)
        (out : Fin N → Fin F → ℝ) (s : BatchNorm F),
      n.training = false → n.forward N x = Except.ok (out, s) →
      s.running_mean = n.running_mean ∧ s.running_var = n.running_var) ∧
    (∀ (m : InstanceNorm F) (x : Fin N → Fin F → ℝ) (b : Fin N → ℕ)
        (B : ℕ),
      m.training = false →
      (m.forward N x b B).2.running_mean = m.running_mean ∧
      (m.forward N x b B).2.running_var = m.running_var) := by
  constructor
  · intro n x out s htrain hok
    have hstep : n.stepState N x = n := by
      unfold BatchNorm.stepState
      rw [if_neg]
      intro hcon
      rw [htrain] at hcon
      exact Bool.noConfusion hcon.1
    unfold BatchNorm.forward at hok
    split_ifs at hok <;>
      first
        | exact Except.noConfusion hok
        | (injection hok with hpair
           injection hpair with ho hs
           rw [← hs]
           first
             | exact ⟨rfl, rfl⟩
             | (rw [hstep]; exact ⟨rfl, rfl⟩))
  · intro m x b B htrain
    have hst : (m.forward N x b B).2 = m := by
      unfold InstanceNorm.forward
      dsimp only
      rw [if_neg]
      intro hcon
      rw [htrain] at hcon
      exact Bool.noConfusion hcon.1
    rw [hst]
    exact ⟨rfl, rfl⟩

/-- C8 witness: concrete evaluation-mode calls on both layer families. -/
theorem eval_mode_preserves_running_stats_witness :
    (bnEval.training = false) ∧
    (bnEval.forward 2 (fun _ _ => 0) =
      Except.ok (bnEval.normalizeWith 2 bnEval.running_mean
        bnEval.running_var (fun _ _ => 0), bnEval)) ∧
    (bnEval.running_mean = bnEval.running_mean ∧
      bnEval.running_var = bnEval.running_var) ∧
    (inEval.training = false) ∧
    ((inEval.forward 2 (fun _ _ => 0) (fun _ => 0) 1).2.running_mean =
        inEval.running_mean ∧
      (inEval.forward 2 (fun _ _ => 0) (fun _ => 0) 1).2.running_var =
        inEval.running_var) :=
  ⟨rfl, rfl,
    (eval_mode_preserves_running_stats 1 2).1 bnEval (fun _ _ => 0)
      (bnEval.normalizeWith 2 bnEval.running_mean bnEval.running_var
        fun _ _ => 0) bnEval rfl rfl,
    rfl,
    (eval_mode_preserves_running_stats 1 2).2 inEval (fun _ _ => 0)
      (fun _ => 0) 1 rfl⟩
